import Mathlib

/-!
Verification of the core of the ohio streaming library: the chunk-buffered
readable base class of ohio/baseio.py and the bounded-handoff pipe adapter
of ohio/pipeio.py.  Python text values are modelled as lists of characters,
and the FIFO chunk source seen by a reader is modelled as the list of chunks
it will yield before signalling StopIteration.  The producer and reader
threads of PipeTextIO are modelled by an interleaving step relation whose
linearization points are the operations on the shared queue and flags.
-/

/-- Exceptions of the modelled code: the distinguished closed-stream error
IOClosed of baseio, a producer error such as RuntimeError together with its
message, the TypeError raised by mixed str and bytes operations, and the
Empty error of a nonblocking queue get. -/
inductive Exc where
  | ioClosed
  | runtimeError (msg : String)
  | typeError
  | queueEmpty
deriving DecidableEq

/-- A chunk of text, modelling a Python str as its list of code points. -/
abbrev Chunk := List Char

/-- Reader state of StreamIOBase over a deterministic chunk source: the
unconsumed buffer of the attribute remainder, the chunks the source will
still yield in order (StopIteration once the list is empty), and the closed
flag. -/
structure StreamState where
  remainder : Chunk
  chunks : List Chunk
  closed : Bool
deriving DecidableEq

/-- Python slice l[:size] where size may be None. -/
def otake (size : Option Nat) (l : Chunk) : Chunk :=
  match size with
  | none => l
  | some n => l.take n

/-- Complement of otake, used only in specifications: the part of the data
that a sized read consumes. -/
def odrop (size : Option Nat) (l : Chunk) : Chunk :=
  match size with
  | none => []
  | some n => l.drop n

/-- The while loop at the top of the method read1 of StreamIOBase: while the
remainder is empty, replace it by the next chunk, stopping when the source
signals StopIteration, which the list model signals by running out. -/
def StreamIOBase.fill (r : Chunk) (cs : List Chunk) : Chunk × List Chunk :=
  if r.isEmpty then
    match cs with
    | [] => (r, [])
    | c :: cs₂ => StreamIOBase.fill c cs₂
  else (r, cs)

/-- The method read1 of StreamIOBase: refill the remainder, serve up to size
units from its front, and keep the rest as the new remainder. -/
def StreamIOBase.read1 (r : Chunk) (cs : List Chunk) (size : Option Nat) :
    Chunk × Chunk × List Chunk :=
  (otake size (StreamIOBase.fill r cs).1,
   ((StreamIOBase.fill r cs).1).drop (otake size (StreamIOBase.fill r cs).1).length,
   (StreamIOBase.fill r cs).2)

/-- The accumulation loop of the method read of StreamIOBase: while size is
None or positive, take a piece via read1, stop on an empty piece, otherwise
deduct its length from size and append the piece to the result. -/
def StreamIOBase.readLoop (r : Chunk) (cs : List Chunk) (size : Option Nat)
    (acc : Chunk) : Chunk × Chunk × List Chunk :=
  if size = some 0 then (acc, r, cs)
  else
    if ((StreamIOBase.read1 r cs size).1).isEmpty then
      (acc, (StreamIOBase.read1 r cs size).2.1, (StreamIOBase.read1 r cs size).2.2)
    else
      StreamIOBase.readLoop (StreamIOBase.read1 r cs size).2.1
        (StreamIOBase.read1 r cs size).2.2
        (size.map fun n => n - (StreamIOBase.read1 r cs size).1.length)
        (acc ++ (StreamIOBase.read1 r cs size).1)
termination_by 2 * cs.length + (if r.isEmpty then 0 else 1) + size.getD 0
decreasing_by
  rename_i hz hc
  have hfill_ne : ∀ (l : List Chunk) (x : Chunk), ¬x.isEmpty →
      StreamIOBase.fill x l = (x, l) := by
    intro l x hx
    cases l <;> · rw [StreamIOBase.fill.eq_def]; simp [hx]
  have hfill_lt : ∀ (l : List Chunk) (x : Chunk), x.isEmpty →
      ¬((StreamIOBase.fill x l).1).isEmpty →
      ((StreamIOBase.fill x l).2).length < l.length := by
    intro l
    induction l with
    | nil =>
      intro x hx h1
      rw [StreamIOBase.fill.eq_def] at h1
      simp [hx] at h1
    | cons c l ih =>
      intro x hx h1
      have he : StreamIOBase.fill x (c :: l) = StreamIOBase.fill c l := by
        rw [StreamIOBase.fill.eq_def]; simp [hx]
      rw [he] at h1 ⊢
      by_cases hce : c.isEmpty
      · exact lt_trans (ih c hce h1) (Nat.lt_succ_self _)
      · rw [hfill_ne l c hce]
        exact Nat.lt_succ_self _
  obtain ⟨r₀, cs₀, hfe⟩ : ∃ a b, StreamIOBase.fill r cs = (a, b) := ⟨_, _, rfl⟩
  simp only [StreamIOBase.read1, hfe] at hc ⊢
  dsimp only at hc ⊢
  have hr₀ : ¬r₀.isEmpty := by
    intro hr
    apply hc
    cases size with
    | none => simpa [otake] using hr
    | some n =>
      simp only [List.isEmpty_iff] at hr
      simp [otake, hr]
  have hr₀len : 0 < r₀.length := by
    cases r₀ with
    | nil => simp at hr₀
    | cons a t => simp
  by_cases hre : r.isEmpty
  · have hlt : cs₀.length < cs.length := by
      have h2 := hfill_lt cs r hre
      rw [hfe] at h2
      exact h2 (by simpa using hr₀)
    cases size with
    | none =>
      simp [otake, hre]
      omega
    | some n =>
      have hn : n ≠ 0 := fun h => hz (by rw [h])
      have hm1 : min n r₀.length ≤ n := Nat.min_le_left _ _
      have hm2 : 0 < min n r₀.length := lt_min (Nat.pos_of_ne_zero hn) hr₀len
      simp [otake, hre]
      split <;> omega
  · have he : StreamIOBase.fill r cs = (r, cs) := hfill_ne cs r hre
    rw [hfe] at he
    injection he with he1 he2
    subst he1; subst he2
    cases size with
    | none =>
      simp [otake, hre]
    | some n =>
      have hn : n ≠ 0 := fun h => hz (by rw [h])
      have hm1 : min n r₀.length ≤ n := Nat.min_le_left _ _
      have hm2 : 0 < min n r₀.length := lt_min (Nat.pos_of_ne_zero hn) hr₀len
      simp [otake, hre]
      split <;> omega

/-- The method read of StreamIOBase: raise IOClosed when closed, turn a
negative size into None, then run the accumulation loop on an empty result. -/
def StreamIOBase.read (st : StreamState) (size : Option Int) :
    Except Exc (Chunk × StreamState) :=
  if st.closed then .error .ioClosed
  else
    let sz : Option Nat :=
      match size with
      | none => none
      | some n => if n < 0 then none else some n.toNat
    .ok ((StreamIOBase.readLoop st.remainder st.chunks sz []).1,
      ⟨(StreamIOBase.readLoop st.remainder st.chunks sz []).2.1,
       (StreamIOBase.readLoop st.remainder st.chunks sz []).2.2, st.closed⟩)

/-- Test that pat occurs at the head of s, as used by substring search. -/
def leadsWith [DecidableEq α] : List α → List α → Bool
  | [], _ => true
  | _ :: _, [] => false
  | a :: p, b :: s => a = b && leadsWith p s

/-- First index at which pat occurs as a contiguous run inside s, if any. -/
def findSub [DecidableEq α] (pat : List α) : List α → Option Nat
  | [] => if pat.isEmpty then some 0 else none
  | b :: s => if leadsWith pat (b :: s) then some 0 else (findSub pat s).map (· + 1)

/-- Python find on sequences: the first index of pat inside s, or minus one. -/
def findIdxInt [DecidableEq α] (pat s : List α) : Int :=
  match findSub pat s with
  | none => -1
  | some i => (i : Int)

/-- The loop of the method readline of StreamIOBase: look for the newline in
the remainder; when absent, move the remainder into the result and pull the
next chunk, setting the remainder to the empty string literal at
StopIteration; when present, serve through the newline and keep the rest. -/
def StreamIOBase.readlineLoop (r : Chunk) (cs : List Chunk) (acc : Chunk) :
    Chunk × Chunk × List Chunk :=
  if findIdxInt ['\n'] r = -1 then
    match cs with
    | [] => (acc ++ r, [], [])
    | c :: cs₂ => StreamIOBase.readlineLoop c cs₂ (acc ++ r)
  else
    (acc ++ r.take (findIdxInt ['\n'] r + 1).toNat,
     r.drop (findIdxInt ['\n'] r + 1).toNat, cs)

/-- The method readline of StreamIOBase at the text instantiation, where the
empty value is the empty string and the newline is the linefeed character. -/
def StreamIOBase.readline (st : StreamState) : Except Exc (Chunk × StreamState) :=
  if st.closed then .error .ioClosed
  else
    .ok ((StreamIOBase.readlineLoop st.remainder st.chunks []).1,
      ⟨(StreamIOBase.readlineLoop st.remainder st.chunks []).2.1,
       (StreamIOBase.readlineLoop st.remainder st.chunks []).2.2, st.closed⟩)

/-- Observation made by the reader on one call of the next chunk primitive
of PipeTextIO: a delivered chunk, a raised exception, or StopIteration. -/
inductive Ev where
  | chunk (c : Chunk)
  | err (e : Exc)
  | eof
deriving DecidableEq

/-- State of one PipeTextIO instance together with its producer script: the
chunks the producer still intends to write and its final outcome (none for a
normal return, some e when it ends by raising e); the contents and capacity
of the bounded handoff queue; the captured writer exception; the liveness
and started flags of the writer thread; the closed flag; the value the
reader has dequeued inside the next chunk primitive but not yet resolved
against the captured exception; and the events the reader has observed. -/
structure PipeState where
  pending : List Chunk
  final : Option Exc
  queue : List Chunk
  cap : Int
  exc : Option Exc
  alive : Bool
  started : Bool
  closed : Bool
  holding : Option (Option Chunk)
  events : List Ev

/-- Queue.full of a Python bounded queue: maxsize positive and reached. -/
def qfull (cap : Int) (q : List Chunk) : Bool :=
  decide (0 < cap) && decide (cap ≤ (q.length : Int))

/-- Space test of Queue.put: a nonpositive maxsize never blocks, otherwise
the queue must be strictly below capacity. -/
def hasSpace (cap : Int) (q : List Chunk) : Bool :=
  decide (cap ≤ 0) || decide ((q.length : Int) < cap)

/-- The method write of PipeTextIO: raise IOClosed on a closed stream
without touching the queue, otherwise enqueue the chunk at the back of the
handoff queue and return its length.  The blocking of a full put is modelled
by the hasSpace guard of the wput step of the run relation below. -/
def PipeTextIo.write (s : PipeState) (text : Chunk) : Except Exc Nat × PipeState :=
  if s.closed then (.error .ioClosed, s)
  else (.ok text.length, { s with queue := s.queue ++ [text] })

/-- The method close of PipeTextIO: mark the stream closed, then free one
queue slot with a nonblocking get when the queue is full, so a producer
blocked on write can observe the closed state and terminate. -/
def PipeTextIo.close (s : PipeState) : Except Exc PipeState :=
  if qfull s.cap s.queue then
    match s.queue with
    | [] => .error .queueEmpty
    | _ :: rest => .ok { s with closed := true, queue := rest }
  else .ok { s with closed := true }

/-- Default class attribute buffer queue size of PipeTextIo. -/
def PipeTextIo.bufferQueueSize : Int := 10

/-- Capacity computed in PipeTextIO init as buffer size or the class
default, with Python falsiness, so both zero and None fall back to the
default while every other integer passes through unchanged. -/
def PipeTextIo.effectiveBufferSize (bufferSize : Option Int) : Int :=
  match bufferSize with
  | none => PipeTextIo.bufferQueueSize
  | some n => if n = 0 then PipeTextIo.bufferQueueSize else n

/-- Exception capture in the writer thread body: an IOClosed escaping the
producer is swallowed as deliberate termination, any other exception is
stored for the reader, and a normal return stores nothing. -/
def dispatchExc : Option Exc → Option Exc
  | none => none
  | some e => if e = Exc.ioClosed then none else some e

/-- Second half of the next chunk primitive of PipeTextIO: a captured writer
exception is raised even over a successfully fetched value, the sentinel
becomes StopIteration, and otherwise the fetched chunk is returned. -/
def resolveEv (exc : Option Exc) (h : Option Chunk) : Ev :=
  match exc with
  | some e => .err e
  | none =>
    match h with
    | none => .eof
    | some c => .chunk c

/-- Interleaved execution of one PipeTextIO instance: writer thread steps
and reader steps at the linearization points of the shared queue and flags.
The two fetch steps and the resolve step split the next chunk primitive at
its two shared accesses, so a writer finishing between them is observed
exactly as in the source. -/
inductive Step : PipeState → PipeState → Prop where
  | cstart (s : PipeState) (hs : s.started = false) (hh : s.holding = none)
      (hc : s.closed = false) :
      Step s { s with started := true, alive := true }
  | wput (s : PipeState) (c : Chunk) (rest : List Chunk)
      (hp : s.pending = c :: rest) (ha : s.alive = true) (hc : s.closed = false)
      (hq : hasSpace s.cap s.queue = true) :
      Step s { s with pending := rest, queue := s.queue ++ [c] }
  | wfinish (s : PipeState) (hp : s.pending = []) (ha : s.alive = true) :
      Step s { s with alive := false, exc := dispatchExc s.final }
  | wabort (s : PipeState) (c : Chunk) (rest : List Chunk)
      (hp : s.pending = c :: rest) (ha : s.alive = true) (hc : s.closed = true) :
      Step s { s with alive := false }
  | cclose (s s₂ : PipeState) (hh : s.holding = none)
      (h : PipeTextIo.close s = .ok s₂) :
      Step s s₂
  | cfetch (s : PipeState) (c : Chunk) (q₂ : List Chunk) (hh : s.holding = none)
      (hs : s.started = true) (hc : s.closed = false) (hq : s.queue = c :: q₂) :
      Step s { s with holding := some (some c), queue := q₂ }
  | cfetchEof (s : PipeState) (hh : s.holding = none) (hs : s.started = true)
      (hc : s.closed = false) (hq : s.queue = []) (ha : s.alive = false) :
      Step s { s with holding := some none }
  | cresolve (s : PipeState) (h : Option Chunk) (hh : s.holding = some h)
      (hc : s.closed = false) :
      Step s { s with holding := none, events := s.events ++ [resolveEv s.exc h] }

/-- Reflexive transitive closure of the pipe step relation. -/
def PipeStar : PipeState → PipeState → Prop := Relation.ReflTransGen Step

/-- Chunks delivered to the reader, in order, within a list of events. -/
def chunksOf (evs : List Ev) : List Chunk :=
  evs.filterMap fun ev =>
    match ev with
    | .chunk c => some c
    | _ => none

/-- Data held in the dequeued-but-unresolved slot of the reader. -/
def holdData : Option (Option Chunk) → List Chunk
  | some (some c) => [c]
  | _ => []

/-- Initial state produced by PipeTextIO init for a producer that writes the
given chunks in order and then returns normally or raises. -/
def initPipe (ws : List Chunk) (f : Option Exc) (cap : Int) : PipeState :=
  ⟨ws, f, [], cap, none, false, false, false, none, []⟩

/-- Inductive invariant of pipe runs: accounting of data between the event
log, the reader slot, the queue and the producer script; the shape and
monotonicity of the captured exception; and the flag discipline of the
lazily started writer thread. -/
structure PipeInv (ws : List Chunk) (f : Option Exc) (s : PipeState) : Prop where
  finalEq : s.final = f
  acct : s.closed = false → s.exc = none →
    chunksOf s.events ++ holdData s.holding ++ s.queue ++ s.pending = ws
  delivered : ∃ t, chunksOf s.events ++ t = ws
  excOk : s.exc = none ∨ ∃ e, f = some e ∧ e ≠ Exc.ioClosed ∧ s.exc = some e
  errOk : ∀ x, Ev.err x ∈ s.events → s.exc = some x
  excAlive : s.alive = true → s.exc = none
  aliveStarted : s.alive = true → s.started = true
  notStarted : s.started = false →
    s.events = [] ∧ s.holding = none ∧ s.exc = none ∧ s.alive = false
  aliveDone : s.closed = false → s.started = true → s.alive = false →
    s.pending = []
  sentinel : s.closed = false → s.holding = some none →
    s.queue = [] ∧ s.pending = [] ∧ s.alive = false
  eofOk : s.closed = false → Ev.eof ∈ s.events →
    s.queue = [] ∧ s.pending = [] ∧ s.alive = false ∧ holdData s.holding = []

/-- Python runtime values as they flow through the untyped readline code:
a str or a bytes value. -/
inductive PyVal where
  | str (s : List Char)
  | bytes (b : List Nat)
deriving DecidableEq

/-- Python concatenation: defined within one type, a TypeError across. -/
def PyVal.add : PyVal → PyVal → Except Exc PyVal
  | .str a, .str b => .ok (.str (a ++ b))
  | .bytes a, .bytes b => .ok (.bytes (a ++ b))
  | _, _ => .error .typeError

/-- Python find: first index of the pattern or minus one within one type,
a TypeError when a str is searched for bytes or the reverse. -/
def PyVal.find : PyVal → PyVal → Except Exc Int
  | .str s, .str t => .ok (findIdxInt t s)
  | .bytes s, .bytes t => .ok (findIdxInt t s)
  | _, _ => .error .typeError

/-- Python slice v[:n] for a nonnegative n, which preserves the type. -/
def PyVal.take : PyVal → Nat → PyVal
  | .str s, n => .str (s.take n)
  | .bytes b, n => .bytes (b.take n)

/-- Python slice v[n:] for a nonnegative n, which preserves the type. -/
def PyVal.drop : PyVal → Nat → PyVal
  | .str s, n => .str (s.drop n)
  | .bytes b, n => .bytes (b.drop n)

/-- Reader state of StreamIOBase with dynamically typed values, as needed to
follow the bytes instantiation StreamBufferedIOBase through the untyped
readline code. -/
structure DynState where
  remainder : PyVal
  chunks : List PyVal
  closed : Bool
deriving DecidableEq

/-- The loop of the method readline of StreamIOBase over dynamically typed
values: the newline comes from the class, while the literal written back to
the remainder at StopIteration is the empty str in every instantiation. -/
def StreamIOBase.readlineDyn (newline : PyVal) (r : PyVal) (cs : List PyVal)
    (acc : PyVal) : Except Exc (PyVal × PyVal × List PyVal) :=
  match PyVal.find r newline with
  | .error e => .error e
  | .ok index =>
    if index = -1 then
      match PyVal.add acc r with
      | .error e => .error e
      | .ok acc₂ =>
        match cs with
        | [] => .ok (acc₂, .str [], [])
        | c :: cs₂ => StreamIOBase.readlineDyn newline c cs₂ acc₂
    else
      match PyVal.add acc (r.take (index + 1).toNat) with
      | .error e => .error e
      | .ok res => .ok (res, r.drop (index + 1).toNat, cs)

/-- The method readline at the bytes instantiation StreamBufferedIOBase:
the empty value is the empty bytes and the newline is the bytes linefeed. -/
def StreamBufferedIOBase.readline (st : DynState) : Except Exc (PyVal × DynState) :=
  if st.closed then .error .ioClosed
  else
    match StreamIOBase.readlineDyn (.bytes [10]) st.remainder st.chunks (.bytes []) with
    | .error e => .error e
    | .ok (res, r₂, cs₂) => .ok (res, ⟨r₂, cs₂, st.closed⟩)

/-- Total data still to be served by a reader state. -/
def StreamState.total (st : StreamState) : Chunk :=
  st.remainder ++ st.chunks.join

/-- Final state of the concrete pipe run used to witness the round trip: a
producer that wrote one chunk and returned, fully read to StopIteration. -/
def runC1End : PipeState :=
  ⟨[], none, [], 10, none, false, true, false, none, [Ev.chunk ['h', 'i'], Ev.eof]⟩

/-- Final state of the concrete pipe run in which the writer finished and
captured its error before the reader resolved its first fetch, so the one
written chunk was dequeued and then discarded in favour of the exception. -/
def runC2End : PipeState :=
  ⟨[], some (Exc.runtimeError "boom"), [], 10, some (Exc.runtimeError "boom"),
   false, true, false, none, [Ev.err (Exc.runtimeError "boom")]⟩

/-- Fresh reader over the two chunks of the partial-read scenario. -/
def c7St : StreamState :=
  ⟨[], ["a,b\r\n".toList, "c,d\r\n".toList], false⟩

theorem StreamIOBase.fill_ne (cs : List Chunk) (r : Chunk) (h : ¬r.isEmpty) :
    StreamIOBase.fill r cs = (r, cs) := by
  cases cs <;> · rw [StreamIOBase.fill.eq_def]; simp [h]

theorem StreamIOBase.fill_total (cs : List Chunk) :
    ∀ r : Chunk, (StreamIOBase.fill r cs).1 ++ ((StreamIOBase.fill r cs).2).join
      = r ++ cs.join := by
  induction cs with
  | nil =>
    intro r
    by_cases h : r.isEmpty
    · rw [StreamIOBase.fill.eq_def]
      simp [h]
    · rw [StreamIOBase.fill_ne _ _ h]
  | cons c cs ih =>
    intro r
    by_cases h : r.isEmpty
    · have he : StreamIOBase.fill r (c :: cs) = StreamIOBase.fill c cs := by
        rw [StreamIOBase.fill.eq_def]; simp [h]
      rw [he, ih c]
      simp [List.isEmpty_iff.mp h]
    · rw [StreamIOBase.fill_ne _ _ h]

theorem StreamIOBase.fill_fst_nil (cs : List Chunk) :
    ∀ r : Chunk, (StreamIOBase.fill r cs).1 = [] → (StreamIOBase.fill r cs).2 = [] := by
  induction cs with
  | nil =>
    intro r _
    by_cases h : r.isEmpty
    · rw [StreamIOBase.fill.eq_def]; simp [h]
    · rw [StreamIOBase.fill_ne _ _ h]
  | cons c cs ih =>
    intro r hr
    by_cases h : r.isEmpty
    · have he : StreamIOBase.fill r (c :: cs) = StreamIOBase.fill c cs := by
        rw [StreamIOBase.fill.eq_def]; simp [h]
      rw [he] at hr ⊢
      exact ih c hr
    · rw [StreamIOBase.fill_ne _ _ h] at hr
      exact absurd (List.isEmpty_iff.mpr hr) h

theorem StreamIOBase.readLoop_spec (r : Chunk) (cs : List Chunk)
    (size : Option Nat) (acc : Chunk) :
    (StreamIOBase.readLoop r cs size acc).1 = acc ++ otake size (r ++ cs.join) ∧
    (StreamIOBase.readLoop r cs size acc).2.1
        ++ ((StreamIOBase.readLoop r cs size acc).2.2).join
      = odrop size (r ++ cs.join) := by
  induction r, cs, size, acc using StreamIOBase.readLoop.induct with
  | case1 r cs acc =>
    rw [StreamIOBase.readLoop]
    simp [otake, odrop]
  | case2 r cs size acc hz hc =>
    rw [StreamIOBase.readLoop, if_neg hz, if_pos hc]
    simp only [StreamIOBase.read1] at hc ⊢
    obtain ⟨r₀, cs₀, hfe⟩ : ∃ a b, StreamIOBase.fill r cs = (a, b) := ⟨_, _, rfl⟩
    have htot : r₀ ++ cs₀.join = r ++ cs.join := by
      have := StreamIOBase.fill_total cs r
      rw [hfe] at this
      exact this
    rw [hfe] at hc ⊢
    dsimp only at hc ⊢
    have hr₀ : r₀ = [] := by
      cases size with
      | none => exact List.isEmpty_iff.mp (by simpa [otake] using hc)
      | some n =>
        have hn : n ≠ 0 := by
          intro h
          rw [h] at hz
          exact hz rfl
        have : r₀.take n = [] := List.isEmpty_iff.mp (by simpa [otake] using hc)
        rcases List.take_eq_nil_iff.mp this with h | h
        · exact absurd h hn
        · exact h
    have hcs₀ : cs₀ = [] := by
      have := StreamIOBase.fill_fst_nil cs r
      rw [hfe] at this
      exact this hr₀
    subst hr₀; subst hcs₀
    have hT : r ++ cs.join = [] := by simpa using htot.symm
    rw [hT]
    cases size <;> simp [otake, odrop]
  | case3 r cs size acc hz hc ih =>
    rw [StreamIOBase.readLoop, if_neg hz, if_neg hc]
    obtain ⟨ih1, ih2⟩ := ih
    simp only [StreamIOBase.read1] at hc ih1 ih2 ⊢
    obtain ⟨r₀, cs₀, hfe⟩ : ∃ a b, StreamIOBase.fill r cs = (a, b) := ⟨_, _, rfl⟩
    have htot : r₀ ++ cs₀.join = r ++ cs.join := by
      have := StreamIOBase.fill_total cs r
      rw [hfe] at this
      exact this
    rw [hfe] at hc ih1 ih2 ⊢
    dsimp only at hc ih1 ih2 ⊢
    rw [← htot]
    cases size with
    | none =>
      simp only [otake, odrop] at ih1 ih2 ⊢
      rw [ih1, ih2]
      constructor
      · simp
      · rfl
    | some n =>
      simp only [otake, odrop, Option.map_some', List.length_take] at ih1 ih2 ⊢
      rcases le_or_lt n r₀.length with hle | hlt
      · have hm : min n r₀.length = n := Nat.min_eq_left hle
        rw [hm] at ih1 ih2 ⊢
        simp only [Nat.sub_self] at ih1 ih2 ⊢
        constructor
        · rw [ih1]
          simp only [List.take_zero, List.append_nil, List.append_assoc]
          congr 1
          rw [List.take_append_eq_append_take]
          have : n - r₀.length = 0 := Nat.sub_eq_zero_of_le hle
          simp [this]
        · rw [ih2]
          simp only [List.drop_zero]
          rw [List.drop_append_eq_append_drop]
          have : n - r₀.length = 0 := Nat.sub_eq_zero_of_le hle
          simp [this]
      · have hm : min n r₀.length = r₀.length := Nat.min_eq_right (Nat.le_of_lt hlt)
        rw [hm] at ih1 ih2 ⊢
        simp only [List.take_length, List.drop_length] at ih1 ih2 ⊢
        constructor
        · rw [ih1]
          simp [List.take_append_eq_append_take,
            List.take_of_length_le (Nat.le_of_lt hlt)]
        · rw [ih2]
          simp [List.drop_append_eq_append_drop,
            List.drop_eq_nil_of_le (Nat.le_of_lt hlt)]

theorem StreamIOBase.read_closed (st : StreamState) (h : st.closed = true)
    (size : Option Int) : StreamIOBase.read st size = .error .ioClosed := by
  simp [StreamIOBase.read, h]

theorem StreamIOBase.readline_closed (st : StreamState) (h : st.closed = true) :
    StreamIOBase.readline st = .error .ioClosed := by
  simp [StreamIOBase.readline, h]

theorem StreamIOBase.read_nat (st : StreamState) (h : st.closed = false) (n : Nat) :
    StreamIOBase.read st (some (n : Int))
      = .ok ((StreamIOBase.readLoop st.remainder st.chunks (some n) []).1,
          ⟨(StreamIOBase.readLoop st.remainder st.chunks (some n) []).2.1,
           (StreamIOBase.readLoop st.remainder st.chunks (some n) []).2.2, false⟩) := by
  have hn : ¬((n : Int) < 0) := by omega
  simp [StreamIOBase.read, h, hn, Int.toNat_natCast]

theorem StreamIOBase.read_none_eq (st : StreamState) (h : st.closed = false) :
    StreamIOBase.read st none
      = .ok ((StreamIOBase.readLoop st.remainder st.chunks none []).1,
          ⟨(StreamIOBase.readLoop st.remainder st.chunks none []).2.1,
           (StreamIOBase.readLoop st.remainder st.chunks none []).2.2, false⟩) := by
  simp [StreamIOBase.read, h]

theorem StreamIOBase.read_neg (st : StreamState) (m : Int) (hm : m < 0) :
    StreamIOBase.read st (some m) = StreamIOBase.read st none := by
  simp [StreamIOBase.read, hm]

theorem StreamIOBase.readLoop_rem_first (r : Chunk) (cs : List Chunk) (n : Nat)
    (acc : Chunk) (h0 : 0 < n) (hle : n ≤ r.length) :
    StreamIOBase.readLoop r cs (some n) acc = (acc ++ r.take n, r.drop n, cs) := by
  have hne : ¬r.isEmpty := by
    intro he
    rw [List.isEmpty_iff.mp he] at hle
    simp at hle
    omega
  have hz : ¬(some n = some 0) := by simp; omega
  rw [StreamIOBase.readLoop, if_neg hz]
  simp only [StreamIOBase.read1, StreamIOBase.fill_ne cs r hne]
  have hlen : (otake (some n) r).length = n := by
    simp [otake, List.length_take, Nat.min_eq_left hle]
  have hcne : ¬(otake (some n) r).isEmpty = true := by
    rw [List.isEmpty_iff]
    intro hnil
    rw [hnil] at hlen
    simp at hlen
    omega
  rw [if_neg hcne, hlen]
  simp only [Option.map_some', Nat.sub_self]
  rw [StreamIOBase.readLoop]
  simp [otake]

theorem join_filter_ne (cs : List Chunk) :
    (cs.filter (fun c => !c.isEmpty)).join = cs.join := by
  induction cs with
  | nil => simp
  | cons c cs ih =>
    by_cases hc : c.isEmpty
    · simp [List.isEmpty_iff.mp hc, ih]
    · simp [hc, ih]

theorem StreamIOBase.fill_filter (cs : List Chunk) :
    ∀ r : Chunk, StreamIOBase.fill r (cs.filter (fun c => !c.isEmpty))
      = ((StreamIOBase.fill r cs).1,
         ((StreamIOBase.fill r cs).2).filter (fun c => !c.isEmpty)) := by
  induction cs with
  | nil =>
    intro r
    by_cases hr : r.isEmpty
    · simp only [List.filter_nil]
      rw [StreamIOBase.fill.eq_def]
      simp [hr]
    · simp only [List.filter_nil]
      rw [StreamIOBase.fill_ne _ _ hr]
      simp
  | cons c cs ih =>
    intro r
    by_cases hr : r.isEmpty
    · have he : StreamIOBase.fill r (c :: cs) = StreamIOBase.fill c cs := by
        rw [StreamIOBase.fill.eq_def]; simp [hr]
      by_cases hc : c.isEmpty
      · have hceq : c = [] := List.isEmpty_iff.mp hc
        have hreq : r = [] := List.isEmpty_iff.mp hr
        subst hceq; subst hreq
        have hfe : List.filter (fun c => !c.isEmpty) ([] :: cs)
            = List.filter (fun c => !c.isEmpty) cs := by simp
        rw [hfe, he, ih []]
      · have hfe : List.filter (fun c => !c.isEmpty) (c :: cs)
            = c :: List.filter (fun c => !c.isEmpty) cs := by simp [hc]
        rw [hfe, he]
        have he₂ : StreamIOBase.fill r (c :: List.filter (fun c => !c.isEmpty) cs)
            = StreamIOBase.fill c (List.filter (fun c => !c.isEmpty) cs) := by
          rw [StreamIOBase.fill.eq_def]; simp [hr]
        rw [he₂, ih c]
    · rw [StreamIOBase.fill_ne _ _ hr, StreamIOBase.fill_ne _ _ hr]

theorem StreamIOBase.read1_filter (r : Chunk) (cs : List Chunk) (size : Option Nat) :
    StreamIOBase.read1 r (cs.filter (fun c => !c.isEmpty)) size
      = ((StreamIOBase.read1 r cs size).1, (StreamIOBase.read1 r cs size).2.1,
         ((StreamIOBase.read1 r cs size).2.2).filter (fun c => !c.isEmpty)) := by
  simp only [StreamIOBase.read1, StreamIOBase.fill_filter cs r]

theorem StreamIOBase.readLoop_unfold (r : Chunk) (cs : List Chunk)
    (size : Option Nat) (acc : Chunk) :
    StreamIOBase.readLoop r cs size acc =
      if size = some 0 then (acc, r, cs)
      else if ((StreamIOBase.read1 r cs size).1).isEmpty then
        (acc, (StreamIOBase.read1 r cs size).2.1, (StreamIOBase.read1 r cs size).2.2)
      else
        StreamIOBase.readLoop (StreamIOBase.read1 r cs size).2.1
          (StreamIOBase.read1 r cs size).2.2
          (size.map fun n => n - (StreamIOBase.read1 r cs size).1.length)
          (acc ++ (StreamIOBase.read1 r cs size).1) := by
  conv_lhs => rw [StreamIOBase.readLoop]

theorem StreamIOBase.readLoop_filter (r : Chunk) (cs : List Chunk)
    (size : Option Nat) (acc : Chunk) :
    StreamIOBase.readLoop r (cs.filter (fun c => !c.isEmpty)) size acc
      = ((StreamIOBase.readLoop r cs size acc).1,
         (StreamIOBase.readLoop r cs size acc).2.1,
         ((StreamIOBase.readLoop r cs size acc).2.2).filter (fun c => !c.isEmpty)) := by
  induction r, cs, size, acc using StreamIOBase.readLoop.induct with
  | case1 r cs acc =>
    rw [StreamIOBase.readLoop_unfold r (cs.filter (fun c => !c.isEmpty)) (some 0) acc,
      StreamIOBase.readLoop_unfold r cs (some 0) acc]
    simp
  | case2 r cs size acc hz hc =>
    rw [StreamIOBase.readLoop_unfold r (cs.filter (fun c => !c.isEmpty)) size acc,
      StreamIOBase.readLoop_unfold r cs size acc, if_neg hz, if_neg hz,
      StreamIOBase.read1_filter]
    simp [hc]
  | case3 r cs size acc hz hc ih =>
    rw [StreamIOBase.readLoop_unfold r (cs.filter (fun c => !c.isEmpty)) size acc,
      StreamIOBase.readLoop_unfold r cs size acc, if_neg hz, if_neg hz,
      StreamIOBase.read1_filter]
    simp [hc, ih]

theorem StreamIOBase.readlineLoop_unfold (r : Chunk) (cs : List Chunk) (acc : Chunk) :
    StreamIOBase.readlineLoop r cs acc =
      if findIdxInt ['\n'] r = -1 then
        match cs with
        | [] => (acc ++ r, [], [])
        | c :: cs₂ => StreamIOBase.readlineLoop c cs₂ (acc ++ r)
      else
        (acc ++ r.take (findIdxInt ['\n'] r + 1).toNat,
         r.drop (findIdxInt ['\n'] r + 1).toNat, cs) := by
  conv_lhs => rw [StreamIOBase.readlineLoop.eq_def]

theorem StreamIOBase.readlineLoop_shift (r : Chunk) (cs : List Chunk) (acc : Chunk)
    (h : findIdxInt ['\n'] r = -1) :
    StreamIOBase.readlineLoop r cs acc = StreamIOBase.readlineLoop [] cs (acc ++ r) := by
  have hnil : findIdxInt ['\n'] ([] : Chunk) = -1 := by decide
  rw [StreamIOBase.readlineLoop_unfold r cs acc,
    StreamIOBase.readlineLoop_unfold [] cs (acc ++ r), if_pos h, if_pos hnil]
  cases cs with
  | nil => simp
  | cons c cs₂ => simp

theorem StreamIOBase.readlineLoop_filter (cs : List Chunk) :
    ∀ (r acc : Chunk),
    StreamIOBase.readlineLoop r (cs.filter (fun c => !c.isEmpty)) acc
      = ((StreamIOBase.readlineLoop r cs acc).1,
         (StreamIOBase.readlineLoop r cs acc).2.1,
         ((StreamIOBase.readlineLoop r cs acc).2.2).filter (fun c => !c.isEmpty)) := by
  induction cs with
  | nil =>
    intro r acc
    simp only [List.filter_nil]
    rw [StreamIOBase.readlineLoop_unfold r [] acc]
    by_cases hf : findIdxInt ['\n'] r = -1 <;> simp [hf]
  | cons c cs ih =>
    intro r acc
    by_cases hf : findIdxInt ['\n'] r = -1
    · by_cases hc : c.isEmpty
      · have hceq : c = [] := List.isEmpty_iff.mp hc
        subst hceq
        have h1 : List.filter (fun c => !c.isEmpty) (([] : Chunk) :: cs)
            = List.filter (fun c => !c.isEmpty) cs := by simp
        have h2 : StreamIOBase.readlineLoop r (([] : Chunk) :: cs) acc
            = StreamIOBase.readlineLoop [] cs (acc ++ r) := by
          rw [StreamIOBase.readlineLoop_unfold r (([] : Chunk) :: cs) acc, if_pos hf]
        rw [h1, ih r acc, h2, StreamIOBase.readlineLoop_shift r cs acc hf]
      · have h1 : List.filter (fun c => !c.isEmpty) (c :: cs)
            = c :: List.filter (fun c => !c.isEmpty) cs := by simp [hc]
        have h2 : ∀ l, StreamIOBase.readlineLoop r (c :: l) acc
            = StreamIOBase.readlineLoop c l (acc ++ r) := by
          intro l
          rw [StreamIOBase.readlineLoop_unfold r (c :: l) acc, if_pos hf]
        rw [h1, h2, h2, ih c (acc ++ r)]
    · rw [StreamIOBase.readlineLoop_unfold r (List.filter (fun c => !c.isEmpty) (c :: cs)) acc,
        StreamIOBase.readlineLoop_unfold r (c :: cs) acc, if_neg hf, if_neg hf]

theorem chunksOf_append (l₁ l₂ : List Ev) :
    chunksOf (l₁ ++ l₂) = chunksOf l₁ ++ chunksOf l₂ :=
  List.filterMap_append _ _ _

theorem pipeInv_init (ws : List Chunk) (f : Option Exc) (cap : Int) :
    PipeInv ws f (initPipe ws f cap) := by
  refine ⟨rfl, ?_, ⟨ws, ?_⟩, Or.inl rfl, ?_, ?_, ?_, ?_, ?_, ?_, ?_⟩
  · intro _ _
    simp [initPipe, chunksOf, holdData]
  · simp [initPipe, chunksOf]
  · intro x hx
    simp [initPipe, chunksOf] at hx
  · intro h
    simp [initPipe] at h
  · intro h
    simp [initPipe] at h
  · intro _
    exact ⟨rfl, rfl, rfl, rfl⟩
  · intro _ h _
    simp [initPipe] at h
  · intro _ h
    simp [initPipe] at h
  · intro _ h
    simp [initPipe] at h

theorem pipeInv_step {s t : PipeState} {ws : List Chunk} {f : Option Exc}
    (hstep : Step s t) (inv : PipeInv ws f s) : PipeInv ws f t := by
  obtain ⟨hfin, hacct, hdel, hexc, herr, hexcAl, halSt, hnotSt, halDone, hsent, heof⟩ := inv
  cases hstep with
  | cstart hs hh hc =>
    refine ⟨hfin, hacct, hdel, hexc, herr, ?_, ?_, ?_, ?_, ?_, ?_⟩
    · intro _
      exact (hnotSt hs).2.2.1
    · intro _
      rfl
    · intro h
      simp at h
    · intro _ _ h
      simp at h
    · intro _ h
      rw [hh] at h
      simp at h
    · intro _ he
      rw [(hnotSt hs).1] at he
      simp at he
  | wput c rest hp ha hc hq =>
    refine ⟨hfin, ?_, hdel, hexc, herr, hexcAl, halSt, hnotSt, ?_, ?_, ?_⟩
    · intro h1 h2
      have h0 := hacct h1 h2
      rw [hp] at h0
      simp only [List.append_assoc, List.singleton_append] at h0 ⊢
      exact h0
    · intro _ _ h3
      rw [ha] at h3
      simp at h3
    · intro h1 h2
      have h3 := (hsent h1 h2).2.2
      rw [ha] at h3
      simp at h3
    · intro h1 he
      have h3 := (heof h1 he).2.2.1
      rw [ha] at h3
      simp at h3
  | wfinish hp ha =>
    refine ⟨hfin, ?_, hdel, ?_, ?_, ?_, ?_, ?_, ?_, ?_, ?_⟩
    · intro h1 _
      have h0 := hacct h1 (hexcAl ha)
      rw [hp] at h0 ⊢
      exact h0
    · show dispatchExc s.final = none ∨ _
      rw [hfin]
      cases f with
      | none => exact Or.inl rfl
      | some e =>
        by_cases he : e = Exc.ioClosed
        · exact Or.inl (by simp [dispatchExc, he])
        · exact Or.inr ⟨e, rfl, he, by simp [dispatchExc, he]⟩
    · intro x hx
      have h0 := herr x hx
      rw [hexcAl ha] at h0
      simp at h0
    · intro h
      simp at h
    · intro h
      simp at h
    · intro h
      rw [halSt ha] at h
      simp at h
    · intro _ _ _
      exact hp
    · intro h1 h2
      exact ⟨(hsent h1 h2).1, (hsent h1 h2).2.1, rfl⟩
    · intro h1 he
      exact ⟨(heof h1 he).1, (heof h1 he).2.1, rfl, (heof h1 he).2.2.2⟩
  | wabort c rest hp ha hc =>
    refine ⟨hfin, ?_, hdel, hexc, herr, ?_, ?_, ?_, ?_, ?_, ?_⟩
    · intro h1
      rw [hc] at h1
      simp at h1
    · intro h
      simp at h
    · intro h
      simp at h
    · intro h
      exact ⟨(hnotSt h).1, (hnotSt h).2.1, (hnotSt h).2.2.1, rfl⟩
    · intro h1
      rw [hc] at h1
      simp at h1
    · intro h1
      rw [hc] at h1
      simp at h1
    · intro h1
      rw [hc] at h1
      simp at h1
  | cclose _ hh hcl =>
    have hshape : t = { s with closed := true, queue := s.queue.tail } ∨
        t = { s with closed := true } := by
      simp only [PipeTextIo.close] at hcl
      split at hcl
      · split at hcl
        · simp at hcl
        · rename_i a rest hq2
          simp only [Except.ok.injEq] at hcl
          left
          rw [← hcl, hq2]
          exact rfl
      · simp only [Except.ok.injEq] at hcl
        right
        rw [← hcl]
    rcases hshape with rfl | rfl <;>
      exact ⟨hfin, fun h1 => by simp at h1, hdel, hexc, herr, hexcAl, halSt,
        hnotSt, fun h1 => by simp at h1, fun h1 => by simp at h1,
        fun h1 => by simp at h1⟩
  | cfetch c q₂ hh hs hc hq =>
    refine ⟨hfin, ?_, hdel, hexc, herr, hexcAl, halSt, ?_, halDone, ?_, ?_⟩
    · intro h1 h2
      have h0 := hacct h1 h2
      rw [hq, hh] at h0
      simp only [holdData] at h0 ⊢
      simp only [List.append_assoc, List.singleton_append, List.nil_append,
        List.cons_append] at h0 ⊢
      exact h0
    · intro h
      rw [hs] at h
      simp at h
    · intro _ h2
      simp at h2
    · intro h1 he
      have h3 := (heof h1 he).1
      rw [hq] at h3
      simp at h3
  | cfetchEof hh hs hc hq ha =>
    refine ⟨hfin, ?_, hdel, hexc, herr, hexcAl, halSt, ?_, halDone, ?_, ?_⟩
    · intro h1 h2
      have h0 := hacct h1 h2
      rw [hh] at h0
      simp only [holdData] at h0 ⊢
      exact h0
    · intro h
      rw [hs] at h
      simp at h
    · intro h1 _
      exact ⟨hq, halDone h1 hs ha, ha⟩
    · intro h1 he
      exact ⟨(heof h1 he).1, (heof h1 he).2.1, (heof h1 he).2.2.1, by simp [holdData]⟩
  | cresolve h hh hc =>
    refine ⟨hfin, ?_, ?_, hexc, ?_, hexcAl, halSt, ?_, halDone, ?_, ?_⟩
    · intro h1 h2
      have h0 := hacct h1 h2
      rw [hh] at h0
      rw [chunksOf_append, h2]
      cases h with
      | none => simpa [resolveEv, chunksOf, holdData] using h0
      | some c =>
        simpa [resolveEv, chunksOf, holdData, List.append_assoc] using h0
    · rcases hexcv : s.exc with _ | e
      · cases h with
        | none =>
          rw [chunksOf_append]
          obtain ⟨tl, htl⟩ := hdel
          exact ⟨tl, by simpa [resolveEv, chunksOf] using htl⟩
        | some c =>
          have h0 := hacct hc hexcv
          rw [hh] at h0
          rw [chunksOf_append]
          refine ⟨s.queue ++ s.pending, ?_⟩
          simpa [resolveEv, chunksOf, holdData, List.append_assoc] using h0
      · rw [chunksOf_append]
        obtain ⟨tl, htl⟩ := hdel
        exact ⟨tl, by simpa [resolveEv, chunksOf] using htl⟩
    · intro x hx
      rw [List.mem_append] at hx
      rcases hx with hx | hx
      · exact herr x hx
      · simp only [List.mem_singleton] at hx
        rcases hexcv : s.exc with _ | e
        · cases h with
          | none => simp [resolveEv, hexcv] at hx
          | some c => simp [resolveEv, hexcv] at hx
        · rw [hexcv] at hx
          have hx2 : Ev.err x = Ev.err e := hx
          injection hx2 with hx3
          rw [hx3]
    · intro h0
      have h3 := (hnotSt h0).2.1
      rw [hh] at h3
      simp at h3
    · intro _ h2
      simp at h2
    · intro h1 he
      rw [List.mem_append] at he
      rcases he with he | he
      · have h3 := heof h1 he
        exact ⟨h3.1, h3.2.1, h3.2.2.1, by simp [holdData]⟩
      · simp only [List.mem_singleton] at he
        rcases hexcv : s.exc with _ | e
        · cases h with
          | none =>
            have h3 := hsent h1 hh
            exact ⟨h3.1, h3.2.1, h3.2.2, by simp [holdData]⟩
          | some c => simp [resolveEv, hexcv] at he
        · simp [resolveEv, hexcv] at he

theorem pipeInv_star {a b : PipeState} (h : PipeStar a b) {ws : List Chunk}
    {f : Option Exc} (ha : PipeInv ws f a) : PipeInv ws f b := by
  induction h with
  | refl => exact ha
  | tail _ hstep ih => exact pipeInv_step hstep ih

theorem hasSpace_nil (cap : Int) : hasSpace cap [] = true := by
  simp only [hasSpace, List.length_nil, Int.natCast_zero, Bool.or_eq_true,
    decide_eq_true_eq]
  omega

theorem close_ok_fields {s t : PipeState} (h : PipeTextIo.close s = .ok t) :
    t.final = s.final ∧ t.exc = s.exc ∧ t.events = s.events ∧ t.closed = true := by
  simp only [PipeTextIo.close] at h
  split at h
  · split at h
    · simp at h
    · simp only [Except.ok.injEq] at h
      rw [← h]
      exact ⟨rfl, rfl, rfl, rfl⟩
  · simp only [Except.ok.injEq] at h
    rw [← h]
    exact ⟨rfl, rfl, rfl, rfl⟩

theorem pipe_no_err {f : Option Exc} (hf : dispatchExc f = none) {a b : PipeState}
    (h : PipeStar a b)
    (ha : a.final = f ∧ a.exc = none ∧ ∀ x, Ev.err x ∉ a.events) :
    b.final = f ∧ b.exc = none ∧ ∀ x, Ev.err x ∉ b.events := by
  induction h with
  | refl => exact ha
  | tail hstar hstep ih =>
    obtain ⟨h1, h2, h3⟩ := ih
    cases hstep with
    | cstart hs hh hc => exact ⟨h1, h2, h3⟩
    | wput c rest hp ha2 hc hq => exact ⟨h1, h2, h3⟩
    | wfinish hp ha2 =>
      refine ⟨h1, ?_, h3⟩
      show dispatchExc _ = none
      rw [h1]
      exact hf
    | wabort c rest hp ha2 hc => exact ⟨h1, h2, h3⟩
    | cclose _ hh hcl =>
      obtain ⟨e1, e2, e3, _⟩ := close_ok_fields hcl
      refine ⟨?_, ?_, ?_⟩
      · rw [e1]; exact h1
      · rw [e2]; exact h2
      · intro x
        rw [e3]
        exact h3 x
    | cfetch c q₂ hh hs hc hq => exact ⟨h1, h2, h3⟩
    | cfetchEof hh hs hc hq ha2 => exact ⟨h1, h2, h3⟩
    | cresolve hold hh hc =>
      refine ⟨h1, h2, ?_⟩
      intro x hx
      rw [List.mem_append] at hx
      rcases hx with hx | hx
      · exact h3 x hx
      · simp only [List.mem_singleton] at hx
        rw [h2] at hx
        cases hold with
        | none => exact Ev.noConfusion (show Ev.err x = Ev.eof from hx)
        | some c => exact Ev.noConfusion (show Ev.err x = Ev.chunk c from hx)

theorem drain_star (f : Option Exc) (cap : Int) :
    ∀ (ws : List Chunk) (evs : List Ev),
      PipeStar ⟨ws, f, [], cap, none, true, true, false, none, evs⟩
               ⟨[], f, [], cap, none, true, true, false, none,
                evs ++ ws.map Ev.chunk⟩ := by
  intro ws
  induction ws with
  | nil =>
    intro evs
    simpa using (Relation.ReflTransGen.refl :
      PipeStar ⟨[], f, [], cap, none, true, true, false, none, evs⟩
        ⟨[], f, [], cap, none, true, true, false, none, evs⟩)
  | cons c ws ih =>
    intro evs
    have s1 : Step (⟨c :: ws, f, [], cap, none, true, true, false, none, evs⟩ : PipeState)
        ⟨ws, f, [c], cap, none, true, true, false, none, evs⟩ :=
      Step.wput _ c ws rfl rfl rfl (hasSpace_nil cap)
    have s2 : Step (⟨ws, f, [c], cap, none, true, true, false, none, evs⟩ : PipeState)
        ⟨ws, f, [], cap, none, true, true, false, some (some c), evs⟩ :=
      Step.cfetch _ c [] rfl rfl rfl rfl
    have s3 : Step (⟨ws, f, [], cap, none, true, true, false, some (some c), evs⟩ : PipeState)
        ⟨ws, f, [], cap, none, true, true, false, none, evs ++ [Ev.chunk c]⟩ :=
      Step.cresolve _ (some c) rfl rfl
    refine Relation.ReflTransGen.head s1 (Relation.ReflTransGen.head s2
      (Relation.ReflTransGen.head s3 ?_))
    have ihx := ih (evs ++ [Ev.chunk c])
    simpa only [List.map_cons, List.append_assoc, List.singleton_append] using ihx

theorem c2_schedule (ws : List Chunk) (e : Exc) (cap : Int) (he : e ≠ Exc.ioClosed) :
    PipeStar (initPipe ws (some e) cap)
      ⟨[], some e, [], cap, some e, false, true, false, none,
       ws.map Ev.chunk ++ [Ev.err e]⟩ := by
  have hd : dispatchExc (some e) = some e := by simp [dispatchExc, he]
  have s0 : Step (initPipe ws (some e) cap)
      ⟨ws, some e, [], cap, none, true, true, false, none, []⟩ :=
    Step.cstart _ rfl rfl rfl
  have hdrain := drain_star (some e) cap ws []
  have s1 : Step (⟨[], some e, [], cap, none, true, true, false, none,
        [] ++ ws.map Ev.chunk⟩ : PipeState)
      ⟨[], some e, [], cap, some e, false, true, false, none,
        [] ++ ws.map Ev.chunk⟩ := by
    have h0 := Step.wfinish ⟨[], some e, [], cap, none, true, true, false, none,
      [] ++ ws.map Ev.chunk⟩ rfl rfl
    simpa [hd] using h0
  have s2 : Step (⟨[], some e, [], cap, some e, false, true, false, none,
        [] ++ ws.map Ev.chunk⟩ : PipeState)
      ⟨[], some e, [], cap, some e, false, true, false, some none,
        [] ++ ws.map Ev.chunk⟩ :=
    Step.cfetchEof _ rfl rfl rfl rfl rfl
  have s3 : Step (⟨[], some e, [], cap, some e, false, true, false, some none,
        [] ++ ws.map Ev.chunk⟩ : PipeState)
      ⟨[], some e, [], cap, some e, false, true, false, none,
        ([] ++ ws.map Ev.chunk) ++ [Ev.err e]⟩ :=
    Step.cresolve _ none rfl rfl
  have hchain := Relation.ReflTransGen.head s0 (Relation.ReflTransGen.trans hdrain
    (Relation.ReflTransGen.head s1 (Relation.ReflTransGen.head s2
      (Relation.ReflTransGen.head s3 Relation.ReflTransGen.refl))))
  simpa using hchain

theorem c1_run : PipeStar (initPipe [['h', 'i']] none 10) runC1End := by
  refine Relation.ReflTransGen.head (Step.cstart _ rfl rfl rfl) ?_
  refine Relation.ReflTransGen.head (Step.wput _ ['h', 'i'] [] rfl rfl rfl (by decide)) ?_
  refine Relation.ReflTransGen.head (Step.wfinish _ rfl rfl) ?_
  refine Relation.ReflTransGen.head (Step.cfetch _ ['h', 'i'] [] rfl rfl rfl rfl) ?_
  refine Relation.ReflTransGen.head (Step.cresolve _ (some ['h', 'i']) rfl rfl) ?_
  refine Relation.ReflTransGen.head (Step.cfetchEof _ rfl rfl rfl rfl rfl) ?_
  refine Relation.ReflTransGen.head (Step.cresolve _ none rfl rfl) ?_
  exact Relation.ReflTransGen.refl

theorem c2_run :
    PipeStar (initPipe [['h', 'i']] (some (Exc.runtimeError "boom")) 10) runC2End := by
  refine Relation.ReflTransGen.head (Step.cstart _ rfl rfl rfl) ?_
  refine Relation.ReflTransGen.head (Step.wput _ ['h', 'i'] [] rfl rfl rfl (by decide)) ?_
  refine Relation.ReflTransGen.head (Step.wfinish _ rfl rfl) ?_
  refine Relation.ReflTransGen.head (Step.cfetch _ ['h', 'i'] [] rfl rfl rfl rfl) ?_
  refine Relation.ReflTransGen.head (Step.cresolve _ (some ['h', 'i']) rfl rfl) ?_
  exact Relation.ReflTransGen.refl

theorem findSub_single_none [DecidableEq α] (a : α) (s : List α) (h : a ∉ s) :
    findSub [a] s = none := by
  induction s with
  | nil => simp [findSub]
  | cons b s ih =>
    have hab : a ≠ b := fun he => h (by simp [he])
    have hs : a ∉ s := fun he => h (by simp [he])
    simp [findSub, leadsWith, hab, ih hs]

theorem findIdxInt_single_neg [DecidableEq α] (a : α) (s : List α) (h : a ∉ s) :
    findIdxInt [a] s = -1 := by
  simp [findIdxInt, findSub_single_none a s h]

theorem readlineDyn_unfold (newline r : PyVal) (cs : List PyVal) (acc : PyVal) :
    StreamIOBase.readlineDyn newline r cs acc =
      match PyVal.find r newline with
      | .error e => .error e
      | .ok index =>
        if index = -1 then
          match PyVal.add acc r with
          | .error e => .error e
          | .ok acc₂ =>
            match cs with
            | [] => .ok (acc₂, .str [], [])
            | c :: cs₂ => StreamIOBase.readlineDyn newline c cs₂ acc₂
        else
          match PyVal.add acc (r.take (index + 1).toNat) with
          | .error e => .error e
          | .ok res => .ok (res, r.drop (index + 1).toNat, cs) := by
  conv_lhs => rw [StreamIOBase.readlineDyn.eq_def]

theorem readlineDyn_no_newline (cs : List (List Nat)) :
    ∀ (r acc : List Nat), (10 : Nat) ∉ r → (∀ c ∈ cs, (10 : Nat) ∉ c) →
    StreamIOBase.readlineDyn (.bytes [10]) (.bytes r) (cs.map PyVal.bytes) (.bytes acc)
      = .ok (.bytes (acc ++ r ++ cs.join), .str [], []) := by
  induction cs with
  | nil =>
    intro r acc hr _
    rw [readlineDyn_unfold]
    have hf : PyVal.find (.bytes r) (.bytes [10]) = .ok (-1) := by
      simp [PyVal.find, findIdxInt_single_neg 10 r hr]
    rw [hf]
    simp [PyVal.add]
  | cons c cs ih =>
    intro r acc hr hcs
    have hc : (10 : Nat) ∉ c := hcs c (by simp)
    have hcs₂ : ∀ x ∈ cs, (10 : Nat) ∉ x := fun x hx => hcs x (by simp [hx])
    simp only [List.map_cons]
    rw [readlineDyn_unfold]
    have hf : PyVal.find (.bytes r) (.bytes [10]) = .ok (-1) := by
      simp [PyVal.find, findIdxInt_single_neg 10 r hr]
    rw [hf]
    simp only [if_pos rfl, PyVal.add]
    rw [ih c (acc ++ r) hc hcs₂]
    simp [List.append_assoc]

/-- C1: for every producer that writes a finite sequence of chunks to the
stream and returns, a reader that has reached StopIteration (the eof event)
has observed exactly the written chunks, in order, with no error, and
reading the received chunk source to exhaustion with read and no size
yields exactly their concatenation. -/
theorem c1_round_trip (ws : List Chunk) (cap : Int) (s : PipeState)
    (hrun : PipeStar (initPipe ws none cap) s) (hnc : s.closed = false)
    (he : Ev.eof ∈ s.events) :
    chunksOf s.events = ws ∧ (∀ x, Ev.err x ∉ s.events) ∧
    Except.map Prod.fst
        (StreamIOBase.read ⟨[], chunksOf s.events, false⟩ none) = .ok ws.join := by
  have hinv := pipeInv_star hrun (pipeInv_init ws none cap)
  obtain ⟨hfin, hacct, hdel, hexc, herr, _, _, _, _, _, heof⟩ := hinv
  have hexc0 : s.exc = none := by
    rcases hexc with h | ⟨e, hfe, _, _⟩
    · exact h
    · exact Option.noConfusion hfe
  have h0 := hacct hnc hexc0
  obtain ⟨hq, hp, _, hhold⟩ := heof hnc he
  rw [hq, hp, hhold] at h0
  simp only [List.append_nil] at h0
  refine ⟨h0, ?_, ?_⟩
  · intro x hx
    have h2 := herr x hx
    rw [hexc0] at h2
    exact Option.noConfusion h2
  · rw [StreamIOBase.read_none_eq _ rfl]
    have hs := (StreamIOBase.readLoop_spec [] (chunksOf s.events) none []).1
    simp only [otake, List.nil_append] at hs
    rw [h0] at hs
    simp [Except.map, hs, h0]

/-- C1 witness: the concrete complete run of a producer writing one chunk
and returning, read to StopIteration. -/
theorem c1_round_trip_witness :
    chunksOf runC1End.events = [['h', 'i']] ∧ (∀ x, Ev.err x ∉ runC1End.events) ∧
    Except.map Prod.fst
        (StreamIOBase.read ⟨[], chunksOf runC1End.events, false⟩ none)
      = .ok ([['h', 'i']] : List Chunk).join :=
  c1_round_trip [['h', 'i']] 10 runC1End c1_run rfl (by decide)

/-- C2 counterexample: a legal schedule in which the producer writes its one
chunk and captures its RuntimeError before the reader resolves its first
fetch; the reader then observes the error immediately and the dequeued chunk
is discarded, so the claimed sequence of one chunk followed by the error is
not what this execution delivers. -/
theorem c2_error_counterexample :
    PipeStar (initPipe [['h', 'i']] (some (Exc.runtimeError "boom")) 10) runC2End ∧
    runC2End.events = [Ev.err (Exc.runtimeError "boom")] ∧
    runC2End.events ≠ [Ev.chunk ['h', 'i'], Ev.err (Exc.runtimeError "boom")] :=
  ⟨c2_run, rfl, by decide⟩

/-- C2 (amended): for a producer that writes k chunks and then raises an
exception other than IOClosed, every execution delivers to the reader a
prefix of those chunks, in order, and any exception it observes is the
original one with type and message preserved; there is a schedule, namely
the one where each chunk is dequeued and resolved before the exception is
captured, in which the reader observes exactly the k chunks and then the
exception on the next read attempt; and a producer whose final raise is the
IOClosed signal is treated as clean termination, with no error ever
surfaced to the reader under any schedule. -/
theorem c2_error_propagation (ws : List Chunk) (e : Exc) (cap : Int)
    (he : e ≠ Exc.ioClosed) :
    (∀ s, PipeStar (initPipe ws (some e) cap) s →
        (∃ t, chunksOf s.events ++ t = ws) ∧ ∀ x, Ev.err x ∈ s.events → x = e) ∧
    PipeStar (initPipe ws (some e) cap)
      ⟨[], some e, [], cap, some e, false, true, false, none,
       ws.map Ev.chunk ++ [Ev.err e]⟩ ∧
    (∀ s, PipeStar (initPipe ws (some Exc.ioClosed) cap) s →
        ∀ x, Ev.err x ∉ s.events) := by
  refine ⟨?_, c2_schedule ws e cap he, ?_⟩
  · intro s hrun
    have hinv := pipeInv_star hrun (pipeInv_init ws (some e) cap)
    obtain ⟨_, _, hdel, hexc, herr, _, _, _, _, _, _⟩ := hinv
    refine ⟨hdel, ?_⟩
    intro x hx
    have h2 := herr x hx
    rcases hexc with h3 | ⟨e₂, he₂, _, h3⟩
    · rw [h3] at h2
      exact Option.noConfusion h2
    · rw [h3] at h2
      injection he₂ with he₃
      injection h2 with h4
      rw [← h4, ← he₃]
  · intro s hrun x
    have hni := pipe_no_err (f := some Exc.ioClosed) (by simp [dispatchExc]) hrun
      ⟨rfl, rfl, fun y hy => by simp [initPipe] at hy⟩
    exact hni.2.2 x

/-- C2 witness: the amended statement at one concrete chunk, the boom error
and the default capacity. -/
theorem c2_error_propagation_witness :
    Exc.runtimeError "boom" ≠ Exc.ioClosed ∧
    ((∀ s, PipeStar (initPipe [['h']] (some (Exc.runtimeError "boom")) 10) s →
        (∃ t, chunksOf s.events ++ t = [['h']]) ∧
        ∀ x, Ev.err x ∈ s.events → x = Exc.runtimeError "boom") ∧
     PipeStar (initPipe [['h']] (some (Exc.runtimeError "boom")) 10)
       ⟨[], some (Exc.runtimeError "boom"), [], 10, some (Exc.runtimeError "boom"),
        false, true, false, none,
        ([['h']] : List Chunk).map Ev.chunk ++ [Ev.err (Exc.runtimeError "boom")]⟩ ∧
     (∀ s, PipeStar (initPipe [['h']] (some Exc.ioClosed) 10) s →
        ∀ x, Ev.err x ∉ s.events)) :=
  ⟨by decide, c2_error_propagation [['h']] (Exc.runtimeError "boom") 10 (by decide)⟩

/-- C3: on an open stream, read with a nonnegative size returns exactly the
first size units of the available data, so exactly size units whenever that
much is available and all remaining data only at exhaustion, where the
stream is left drained; a request covered by the remainder buffer is served
from it without consuming any chunk from the source; and a size of None or
a negative size accumulates every chunk until exhaustion. -/
theorem c3_read_semantics (st : StreamState) (h : st.closed = false) :
    (∀ n : Nat, Except.map Prod.fst (StreamIOBase.read st (some (n : Int)))
        = .ok (st.total.take n)) ∧
    (∀ n : Nat, n ≤ st.total.length →
      Except.map (fun p => p.1.length) (StreamIOBase.read st (some (n : Int)))
        = .ok n) ∧
    (∀ (n : Nat) (res : Chunk) (st₂ : StreamState),
      StreamIOBase.read st (some (n : Int)) = .ok (res, st₂) → res.length < n →
      res = st.total ∧ st₂.total = []) ∧
    (∀ n : Nat, 0 < n → n ≤ st.remainder.length →
      StreamIOBase.read st (some (n : Int))
        = .ok (st.remainder.take n, ⟨st.remainder.drop n, st.chunks, st.closed⟩)) ∧
    Except.map Prod.fst (StreamIOBase.read st none) = .ok st.total ∧
    (∀ m : Int, m < 0 → StreamIOBase.read st (some m) = StreamIOBase.read st none) := by
  have hspec := fun sz => StreamIOBase.readLoop_spec st.remainder st.chunks sz []
  refine ⟨?_, ?_, ?_, ?_, ?_, ?_⟩
  · intro n
    rw [StreamIOBase.read_nat st h n]
    have h1 := (hspec (some n)).1
    simp only [otake, List.nil_append] at h1
    simp [Except.map, h1, StreamState.total]
  · intro n hn
    rw [StreamIOBase.read_nat st h n]
    have h1 := (hspec (some n)).1
    simp only [otake, List.nil_append] at h1
    simp only [StreamState.total] at hn
    simp only [Except.map, h1]
    rw [List.length_take, Nat.min_eq_left hn]
  · intro n res st₂ hread hlen
    rw [StreamIOBase.read_nat st h n] at hread
    simp only [Except.ok.injEq, Prod.mk.injEq] at hread
    obtain ⟨hres, hst⟩ := hread
    have h1 := (hspec (some n)).1
    have h2 := (hspec (some n)).2
    simp only [otake, odrop, List.nil_append] at h1 h2
    rw [h1] at hres
    have hlen₂ : st.total.length < n := by
      rw [← hres] at hlen
      simp only [StreamState.total]
      by_contra hcon
      push_neg at hcon
      rw [List.length_take] at hlen
      omega
    constructor
    · rw [← hres]
      simp only [StreamState.total]
      exact List.take_of_length_le (by simpa [StreamState.total] using Nat.le_of_lt hlen₂)
    · rw [← hst]
      simp only [StreamState.total]
      rw [h2]
      exact List.drop_eq_nil_of_le (by simpa [StreamState.total] using Nat.le_of_lt hlen₂)
  · intro n h0 hle
    rw [StreamIOBase.read_nat st h n,
      StreamIOBase.readLoop_rem_first st.remainder st.chunks n [] h0 hle]
    simp [h]
  · rw [StreamIOBase.read_none_eq st h]
    have h1 := (hspec none).1
    simp only [otake, List.nil_append] at h1
    simp [Except.map, h1, StreamState.total]
  · intro m hm
    exact StreamIOBase.read_neg st m hm

/-- C3 witness: the sized-read semantics applied at a concrete open stream
with a two-character remainder and one further chunk. -/
theorem c3_read_semantics_witness :
    ((⟨['a', 'b'], [['c', 'd']], false⟩ : StreamState).closed = false) ∧
    Except.map Prod.fst
        (StreamIOBase.read ⟨['a', 'b'], [['c', 'd']], false⟩ (some ((3 : Nat) : Int)))
      = .ok ((⟨['a', 'b'], [['c', 'd']], false⟩ : StreamState).total.take 3) ∧
    StreamIOBase.read ⟨['a', 'b'], [['c', 'd']], false⟩ (some ((1 : Nat) : Int))
      = .ok (['a'], ⟨['b'], [['c', 'd']], false⟩) ∧
    Except.map Prod.fst (StreamIOBase.read ⟨['a', 'b'], [['c', 'd']], false⟩ none)
      = .ok (⟨['a', 'b'], [['c', 'd']], false⟩ : StreamState).total := by
  have h := c3_read_semantics ⟨['a', 'b'], [['c', 'd']], false⟩ rfl
  refine ⟨rfl, h.1 3, ?_, h.2.2.2.2.1⟩
  have h4 := h.2.2.2.1 1 (by decide) (by decide)
  simpa using h4

/-- C4: every read, with or without a size, and every readline on a closed
stream raises IOClosed, whatever data is still buffered. -/
theorem c4_closed_raises (st : StreamState) (h : st.closed = true) :
    (∀ size : Option Int, StreamIOBase.read st size = .error .ioClosed) ∧
    StreamIOBase.readline st = .error .ioClosed :=
  ⟨fun size => StreamIOBase.read_closed st h size, StreamIOBase.readline_closed st h⟩

/-- C4 witness: a closed stream with unread buffered data still raises on
both read and readline. -/
theorem c4_closed_raises_witness :
    ((⟨['x'], [['y']], true⟩ : StreamState).closed = true) ∧
    (∀ size : Option Int,
      StreamIOBase.read ⟨['x'], [['y']], true⟩ size = .error .ioClosed) ∧
    StreamIOBase.readline ⟨['x'], [['y']], true⟩ = .error .ioClosed :=
  ⟨rfl, (c4_closed_raises ⟨['x'], [['y']], true⟩ rfl).1,
   (c4_closed_raises ⟨['x'], [['y']], true⟩ rfl).2⟩

/-- C5: write on a closed pipe raises IOClosed and leaves the state, in
particular the handoff queue, untouched; write on an open pipe appends the
chunk at the back of the queue and returns the length of the chunk. -/
theorem c5_write_semantics (s : PipeState) (t : Chunk) :
    (s.closed = true → PipeTextIo.write s t = (.error .ioClosed, s)) ∧
    (s.closed = false →
      PipeTextIo.write s t = (.ok t.length, { s with queue := s.queue ++ [t] })) := by
  constructor
  · intro h
    simp [PipeTextIo.write, h]
  · intro h
    simp [PipeTextIo.write, h]

/-- C5 witness: one closed pipe rejecting a write with the queue unchanged,
and one open pipe accepting it and returning the chunk length. -/
theorem c5_write_semantics_witness :
    ((⟨[], none, [['z']], 3, none, false, false, true, none, []⟩ : PipeState).closed = true ∧
     PipeTextIo.write ⟨[], none, [['z']], 3, none, false, false, true, none, []⟩ ['a']
       = (.error .ioClosed, ⟨[], none, [['z']], 3, none, false, false, true, none, []⟩)) ∧
    ((⟨[], none, [['z']], 3, none, false, false, false, none, []⟩ : PipeState).closed = false ∧
     PipeTextIo.write ⟨[], none, [['z']], 3, none, false, false, false, none, []⟩ ['a']
       = (.ok 1, ⟨[], none, [['z'], ['a']], 3, none, false, false, false, none, []⟩)) :=
  ⟨⟨rfl, (c5_write_semantics ⟨[], none, [['z']], 3, none, false, false, true, none, []⟩ ['a']).1 rfl⟩,
   ⟨rfl, (c5_write_semantics ⟨[], none, [['z']], 3, none, false, false, false, none, []⟩ ['a']).2 rfl⟩⟩

/-- C6: an empty chunk produced by the source is valid data and not an end
marker: read, for every size, and readline return the same results over a
source with its empty chunks removed, the leftover state corresponding up
to that same removal; exhaustion arises only from the source running out. -/
theorem c6_empty_chunks (st : StreamState) (size : Option Int) :
    StreamIOBase.read ⟨st.remainder, st.chunks.filter (fun c => !c.isEmpty), st.closed⟩ size
      = Except.map (fun p => (p.1,
          (⟨p.2.remainder, p.2.chunks.filter (fun c => !c.isEmpty), p.2.closed⟩ : StreamState)))
          (StreamIOBase.read st size) ∧
    StreamIOBase.readline ⟨st.remainder, st.chunks.filter (fun c => !c.isEmpty), st.closed⟩
      = Except.map (fun p => (p.1,
          (⟨p.2.remainder, p.2.chunks.filter (fun c => !c.isEmpty), p.2.closed⟩ : StreamState)))
          (StreamIOBase.readline st) := by
  constructor
  · cases hcl : st.closed with
    | true =>
      rw [StreamIOBase.read_closed st hcl size, StreamIOBase.read_closed _ rfl size]
      simp [Except.map]
    | false =>
      simp [StreamIOBase.read, hcl, StreamIOBase.readLoop_filter, Except.map]
  · cases hcl : st.closed with
    | true =>
      rw [StreamIOBase.readline_closed st hcl, StreamIOBase.readline_closed _ rfl]
      simp [Except.map]
    | false =>
      simp [StreamIOBase.readline, hcl, StreamIOBase.readlineLoop_filter st.chunks,
        Except.map]

/-- C7: a sized read followed by a read to exhaustion concatenates to
exactly what a single full read of the fresh stream returns, split at the
requested boundary; in particular over the two chunks of the scenario,
read of three units returns the first three characters and the following
full read returns the rest. -/
theorem c7_partial_reads (st : StreamState) (h : st.closed = false) (n : Nat) :
    ((StreamIOBase.read st (some (n : Int))).bind
        (fun p => Except.map (fun q => p.1 ++ q.1) (StreamIOBase.read p.2 none))
      = Except.map Prod.fst (StreamIOBase.read st none)) ∧
    (∀ res st₂, StreamIOBase.read c7St (some ((3 : Nat) : Int)) = .ok (res, st₂) →
      res = "a,b".toList ∧
      Except.map Prod.fst (StreamIOBase.read st₂ none) = .ok ("\r\nc,d\r\n".toList)) := by
  constructor
  · rw [StreamIOBase.read_nat st h n, StreamIOBase.read_none_eq st h]
    have hA := (StreamIOBase.readLoop_spec st.remainder st.chunks (some n) []).1
    have hBC := (StreamIOBase.readLoop_spec st.remainder st.chunks (some n) []).2
    have hD := (StreamIOBase.readLoop_spec st.remainder st.chunks none []).1
    have hE := (StreamIOBase.readLoop_spec
      (StreamIOBase.readLoop st.remainder st.chunks (some n) []).2.1
      (StreamIOBase.readLoop st.remainder st.chunks (some n) []).2.2 none []).1
    simp only [otake, odrop, List.nil_append] at hA hBC hD hE
    rw [Except.bind]
    rw [StreamIOBase.read_none_eq _ rfl]
    simp only [Except.map, hA, hD, hE, hBC]
    rw [List.take_append_drop]
  · intro res st₂ hread
    rw [StreamIOBase.read_nat c7St rfl 3] at hread
    simp only [Except.ok.injEq, Prod.mk.injEq] at hread
    obtain ⟨hres, hst⟩ := hread
    have hA := (StreamIOBase.readLoop_spec c7St.remainder c7St.chunks (some 3) []).1
    have hBC := (StreamIOBase.readLoop_spec c7St.remainder c7St.chunks (some 3) []).2
    simp only [otake, odrop, List.nil_append] at hA hBC
    constructor
    · rw [← hres, hA]
      decide
    · rw [← hst]
      rw [StreamIOBase.read_none_eq _ rfl]
      have hE := (StreamIOBase.readLoop_spec
        (StreamIOBase.readLoop c7St.remainder c7St.chunks (some 3) []).2.1
        (StreamIOBase.readLoop c7St.remainder c7St.chunks (some 3) []).2.2 none []).1
      simp only [otake, List.nil_append] at hE
      simp only [Except.map, hE, hBC]
      simp only [Except.ok.injEq]
      decide

/-- C8: close never raises, in any state, including before any read has
happened; and when the queue respects the capacity bound, closing twice is
the same as closing once, the second call being a pure no-op. -/
theorem c8_close_idempotent (s : PipeState) :
    (∃ s₂, PipeTextIo.close s = .ok s₂) ∧
    (∀ s₂, (0 < s.cap → (s.queue.length : Int) ≤ s.cap) →
      PipeTextIo.close s = .ok s₂ → PipeTextIo.close s₂ = .ok s₂) := by
  constructor
  · simp only [PipeTextIo.close]
    split
    · rename_i hfull
      cases hq : s.queue with
      | nil =>
        exfalso
        rw [hq] at hfull
        simp [qfull] at hfull
        omega
      | cons a rest =>
        exact ⟨_, rfl⟩
    · exact ⟨_, rfl⟩
  · intro s₂ hbound hok
    simp only [PipeTextIo.close] at hok
    split at hok
    · rename_i hfull
      split at hok
      · simp at hok
      · rename_i a rest hq
        simp only [Except.ok.injEq] at hok
        rw [← hok]
        simp only [PipeTextIo.close]
        have hql : s.queue.length = rest.length + 1 := by
          rw [hq]
          simp
        have hfull₂ : qfull s.cap rest = false := by
          have h1 : 0 < s.cap ∧ s.cap ≤ (s.queue.length : Int) := by
            simpa [qfull] using hfull
          have h2 : (s.queue.length : Int) ≤ s.cap := hbound h1.1
          have h3 : ¬(s.cap ≤ (rest.length : Int)) := by omega
          simp [qfull, h3]
        rw [hfull₂]
        simp
    · rename_i hfull
      simp only [Except.ok.injEq] at hok
      rw [← hok]
      simp only [PipeTextIo.close]
      have hfull₂ : qfull s.cap s.queue = false := by
        cases hqf : qfull s.cap s.queue
        · rfl
        · exact absurd hqf hfull
      rw [hfull₂]
      simp

/-- C7 witness: the split property applied to the fresh two-chunk stream at
the boundary three. -/
theorem c7_partial_reads_witness :
    c7St.closed = false ∧
    (((StreamIOBase.read c7St (some ((3 : Nat) : Int))).bind
        (fun p => Except.map (fun q => p.1 ++ q.1) (StreamIOBase.read p.2 none))
      = Except.map Prod.fst (StreamIOBase.read c7St none)) ∧
     (∀ res st₂, StreamIOBase.read c7St (some ((3 : Nat) : Int)) = .ok (res, st₂) →
       res = "a,b".toList ∧
       Except.map Prod.fst (StreamIOBase.read st₂ none) = .ok ("\r\nc,d\r\n".toList))) :=
  ⟨rfl, c7_partial_reads c7St rfl 3⟩

/-- C8 witness: closing a pipe whose queue is at capacity succeeds, and a
second close of the resulting state is a no-op. -/
theorem c8_close_idempotent_witness :
    (∃ s₂, PipeTextIo.close
        ⟨[], none, [['a'], ['b']], 2, none, false, false, false, none, []⟩ = .ok s₂) ∧
    (0 < (⟨[], none, [['a'], ['b']], 2, none, false, false, false, none, []⟩ :
        PipeState).cap →
      (((⟨[], none, [['a'], ['b']], 2, none, false, false, false, none, []⟩ :
        PipeState).queue.length : Int) ≤ 2)) ∧
    PipeTextIo.close ⟨[], none, [['b']], 2, none, false, false, true, none, []⟩
      = .ok ⟨[], none, [['b']], 2, none, false, false, true, none, []⟩ :=
  ⟨(c8_close_idempotent ⟨[], none, [['a'], ['b']], 2, none, false, false, false, none, []⟩).1,
   by decide,
   (c8_close_idempotent ⟨[], none, [['a'], ['b']], 2, none, false, false, false, none, []⟩).2
     ⟨[], none, [['b']], 2, none, false, false, true, none, []⟩ (by decide) (by rfl)⟩

/-- C9 counterexample: a negative buffer size is truthy in Python, so it
passes through the falsy fallback unchanged; the capacity is then not a
positive integer, and the queue it configures is never full, hence
unbounded. -/
theorem c9_buffer_size_counterexample :
    PipeTextIo.effectiveBufferSize (some (-1)) = -1 ∧
    ¬(0 < PipeTextIo.effectiveBufferSize (some (-1))) ∧
    qfull (PipeTextIo.effectiveBufferSize (some (-1)))
        (List.replicate 100 ([] : Chunk)) = false := by
  refine ⟨rfl, by decide, by decide⟩

/-- C9 (amended): a falsy buffer size, namely zero or None, silently falls
back to the default capacity of ten, so the capacity is a positive integer
whenever the requested size is None, zero or positive; a negative size is
passed through unchanged and yields an unbounded queue. -/
theorem c9_buffer_size_semantics :
    PipeTextIo.effectiveBufferSize none = 10 ∧
    PipeTextIo.effectiveBufferSize (some 0) = 10 ∧
    (∀ n : Int, 0 ≤ n → 0 < PipeTextIo.effectiveBufferSize (some n)) ∧
    (∀ n : Int, n < 0 → PipeTextIo.effectiveBufferSize (some n) = n) := by
  refine ⟨rfl, rfl, ?_, ?_⟩
  · intro n hn
    simp only [PipeTextIo.effectiveBufferSize]
    by_cases h : n = 0
    · simp [h, PipeTextIo.bufferQueueSize]
    · simp only [h, if_false]
      omega
  · intro n hn
    have h : ¬(n = 0) := by omega
    simp [PipeTextIo.effectiveBufferSize, h]

/-- C9 witness: the fallback and passthrough behaviour at five and at minus
two. -/
theorem c9_buffer_size_witness :
    (0 ≤ (5 : Int) ∧ 0 < PipeTextIo.effectiveBufferSize (some 5)) ∧
    ((-2 : Int) < 0 ∧ PipeTextIo.effectiveBufferSize (some (-2)) = -2) :=
  ⟨⟨by decide, c9_buffer_size_semantics.2.2.1 5 (by decide)⟩,
   ⟨by decide, c9_buffer_size_semantics.2.2.2 (-2) (by decide)⟩⟩

/-- C10: on a bytes stream, a readline that reaches exhaustion without
finding a newline returns all remaining data but writes the str empty
literal into the remainder rather than the empty bytes; the next readline
on the still open stream then raises a TypeError, from searching that str
remainder for the bytes newline, instead of returning the empty bytes. -/
theorem c10_bytes_readline (rem : List Nat) (cs : List (List Nat))
    (h1 : (10 : Nat) ∉ rem) (h2 : ∀ c ∈ cs, (10 : Nat) ∉ c) :
    StreamBufferedIOBase.readline ⟨.bytes rem, cs.map PyVal.bytes, false⟩
        = .ok (.bytes (rem ++ cs.join), ⟨.str [], [], false⟩) ∧
    StreamBufferedIOBase.readline ⟨.str [], [], false⟩ = .error .typeError := by
  constructor
  · simp [StreamBufferedIOBase.readline, readlineDyn_no_newline cs rem [] h1 h2]
  · rfl

/-- C10 witness: one newline-free byte in the remainder and one further
newline-free chunk. -/
theorem c10_bytes_readline_witness :
    ((10 : Nat) ∉ [97]) ∧ (∀ c ∈ [[98]], (10 : Nat) ∉ c) ∧
    (StreamBufferedIOBase.readline ⟨.bytes [97], [[98]].map PyVal.bytes, false⟩
        = .ok (.bytes ([97] ++ ([[98]] : List (List Nat)).join), ⟨.str [], [], false⟩) ∧
     StreamBufferedIOBase.readline ⟨.str [], [], false⟩ = .error .typeError) :=
  ⟨by decide, by decide, c10_bytes_readline [97] [[98]] (by decide) (by decide)⟩
